import Mathlib

/-!
Verification development for the Q2BSTUDIO similarity analyzer
(`similarity_analyzer.py`).  Python strings are embedded as `List Char`
(with ASCII case mapping and ASCII whitespace), Python `set` as `Finset`,
and Python `float` arithmetic as exact rational arithmetic.
-/

/-- A row of `articles.csv` restricted to the fields the analyzer reads
(`article.get("title", "")`, `article.get("url", "")`,
`article.get("date_parsed", "")`); a missing field is the empty string. -/
structure Article where
  title : List Char
  url : List Char
  date_parsed : List Char
deriving DecidableEq

/-- Python `\s` on the ASCII range: the whitespace characters recognised by
`str.split()` and by the `\s` character class. -/
def pyIsSpace (c : Char) : Bool :=
  c.toNat = 32 || c.toNat = 9 || c.toNat = 10 || c.toNat = 13 ||
    c.toNat = 11 || c.toNat = 12

/-- The character class `[a-z0-9]` appearing in the regex `[^a-z0-9\s]`. -/
def isLowerAlnum (c : Char) : Bool :=
  (97 ≤ c.toNat && c.toNat ≤ 122) || (48 ≤ c.toNat && c.toNat ≤ 57)

/-- `str.lower` on one character (ASCII case mapping). -/
def pyToLower (c : Char) : Char :=
  if 65 ≤ c.toNat ∧ c.toNat ≤ 90 then Char.ofNat (c.toNat + 32) else c

/-- `text.lower()`. -/
def lowerStr (s : List Char) : List Char := s.map pyToLower

/-- The scheme part `http[s]?://` of the regex `http[s]?://\S+`, matched at
the head of the list; returns what follows the scheme.  (`[s]?` is greedy,
and the two alternatives can never both match at one position.) -/
def schemeRest : List Char → Option (List Char)
  | 'h' :: 't' :: 't' :: 'p' :: 's' :: ':' :: '/' :: '/' :: r => some r
  | 'h' :: 't' :: 't' :: 'p' :: ':' :: '/' :: '/' :: r => some r
  | _ => none

/-- The whole regex `http[s]?://\S+` matched at the head of the list:
`\S+` greedily takes the maximal non-empty run of non-whitespace characters.
Returns the remainder of the list after the match. -/
def urlMatch (l : List Char) : Option (List Char) :=
  match schemeRest l with
  | none => none
  | some r =>
    match r with
    | [] => none
    | c :: _ =>
      if pyIsSpace c then none else some (r.dropWhile (fun d => !pyIsSpace d))

theorem schemeRest_length {l r : List Char} (h : schemeRest l = some r) :
    r.length + 7 ≤ l.length := by
  unfold schemeRest at h
  split at h <;> simp_all

theorem urlMatch_length {l r : List Char} (h : urlMatch l = some r) :
    r.length < l.length := by
  unfold urlMatch at h
  cases hs : schemeRest l with
  | none => rw [hs] at h; exact absurd h (by simp)
  | some t =>
    rw [hs] at h
    have h1 := schemeRest_length hs
    cases t with
    | nil => exact absurd h (by simp)
    | cons c cs =>
      by_cases hp : pyIsSpace c
      · simp [hp] at h
      · simp [hp] at h
        have h2 : (List.dropWhile (fun d => !pyIsSpace d) cs).length ≤
            cs.length := (List.dropWhile_sublist _).length_le
        subst h
        simp only [List.length_cons] at h1
        omega

/-- `re.sub(r'http[s]?://\S+', '', text)`: scan left to right; at each
position either delete a leftmost match and continue after it, or keep the
character and move on by one. -/
def removeUrls (l : List Char) : List Char :=
  match l with
  | [] => []
  | c :: cs =>
    match h : urlMatch (c :: cs) with
    | some rest => removeUrls rest
    | none => c :: removeUrls cs
termination_by l.length
decreasing_by
  · exact urlMatch_length h
  · simp

/-- One character of `re.sub(r'[^a-z0-9\s]', ' ', text)`. -/
def keepAlnum (c : Char) : Char :=
  if isLowerAlnum c || pyIsSpace c then c else ' '

/-- `re.sub(r'[^a-z0-9\s]', ' ', text)`: every character that is not a
lowercase letter, digit or whitespace becomes a space. -/
def keepAlnumSpaces (s : List Char) : List Char := s.map keepAlnum

/-- `text.split()`: the maximal runs of non-whitespace characters, in order. -/
def pyWords (l : List Char) : List (List Char) :=
  match l with
  | [] => []
  | c :: cs =>
    if pyIsSpace c then pyWords cs
    else
      (c :: cs.takeWhile (fun d => !pyIsSpace d)) ::
        pyWords (cs.dropWhile (fun d => !pyIsSpace d))
termination_by l.length
decreasing_by
  · simp
  · simp only [List.length_cons]
    exact Nat.lt_succ_of_le ((List.dropWhile_sublist _).length_le)

/-- `' '.join(ws)`. -/
def joinSp : List (List Char) → List Char
  | [] => []
  | [w] => w
  | w :: ws => w ++ ' ' :: joinSp ws

/-- `' '.join(text.split())`: collapse whitespace runs to single spaces and
trim both ends. -/
def normalizeWhitespace (s : List Char) : List Char := joinSp (pyWords s)

/-- Embeds `SimilarityAnalyzer.normalize_text`: the early return for falsy
input, then lowercasing, URL removal, special-character replacement and
whitespace normalization, in the source's order. -/
def normalize_text (text : List Char) : List Char :=
  if text = [] then []
  else normalizeWhitespace (keepAlnumSpaces (removeUrls (lowerStr text)))

/-- Embeds `SimilarityAnalyzer.generate_ngrams`: normalize, then either the
singleton of the whole (short) normalized string, or the set of all
`text[i:i+n]` slices for `i` in `range(len(text) - n + 1)`. -/
def generate_ngrams (text : List Char) (n : Nat) : Finset (List Char) :=
  let t := normalize_text text
  if t.length < n then {t}
  else ((List.range (t.length - n + 1)).map (fun i => (t.drop i).take n)).toFinset

/-- Embeds `SimilarityAnalyzer.calculate_jaccard_similarity`.  A Python
`set` is falsy exactly when it is empty. -/
def calculate_jaccard_similarity (set1 set2 : Finset (List Char)) : ℚ :=
  if set1 = ∅ ∨ set2 = ∅ then 0
  else
    let intersection := (set1 ∩ set2).card
    let union := (set1 ∪ set2).card
    if union = 0 then 0 else (intersection : ℚ) / (union : ℚ)

/-- The `article1` / `article2` sub-dictionaries of an emitted pair. -/
structure ArticleOut where
  title : List Char
  url : List Char
  date : List Char
deriving DecidableEq

def mkArticleOut (a : Article) : ArticleOut := ⟨a.title, a.url, a.date_parsed⟩

/-- One entry of the `similar_pairs` list. -/
structure SimilarPair where
  article1 : ArticleOut
  article2 : ArticleOut
  similarity : ℚ
deriving DecidableEq

/-- Round half to even, the rounding mode of Python's builtin `round`. -/
def roundHalfEven (x : ℚ) : ℤ :=
  let f := ⌊x⌋
  if x - f < 1/2 then f
  else if 1/2 < x - f then f + 1
  else if f % 2 = 0 then f else f + 1

/-- `round(x, 4)` on the similarity score.  Python rounds the binary float;
the embedding works with exact rationals and rounds those. -/
def round4 (q : ℚ) : ℚ := (roundHalfEven (q * 10000) : ℚ) / 10000

/-- The two nested loops of `find_similar_pairs`: for each article in turn,
compare it with every later article in order, emitting a pair whenever
`similarity >= threshold`; then continue with the later articles. -/
def pairsFrom (thr : ℚ) : List (Article × Finset (List Char)) → List SimilarPair
  | [] => []
  | x :: rest =>
    (rest.filterMap (fun y =>
      let sim := calculate_jaccard_similarity x.2 y.2
      if thr ≤ sim then some ⟨mkArticleOut x.1, mkArticleOut y.1, round4 sim⟩
      else none))
    ++ pairsFrom thr rest

/-- Embeds `SimilarityAnalyzer.find_similar_pairs`: precompute an n-gram set
for every article, then scan all unordered pairs in `(i, j), i < j` order,
keeping those with `similarity >= threshold`. -/
def find_similar_pairs (articles : List Article) (ngram_size : Nat)
    (similarity_threshold : ℚ) : List SimilarPair :=
  pairsFrom similarity_threshold
    (articles.map (fun a => (a, generate_ngrams a.title ngram_size)))

/-- `title_groups[normalized].append(article)` on an insertion-ordered
association list: append to the existing group, or add a new key at the
end (Python dicts preserve key insertion order). -/
def addToGroups (groups : List (List Char × List Article)) (key : List Char)
    (a : Article) : List (List Char × List Article) :=
  match groups with
  | [] => [(key, [a])]
  | (k, g) :: rest =>
    if k = key then (k, g ++ [a]) :: rest
    else (k, g) :: addToGroups rest key a

/-- The grouping loop of `cluster_by_exact_match`: group the articles by
normalized title, skipping articles whose normalized title is empty. -/
def buildGroups (articles : List Article) : List (List Char × List Article) :=
  articles.foldl
    (fun groups a =>
      let normalized := normalize_text a.title
      if normalized = [] then groups else addToGroups groups normalized a)
    []

/-- One step of a stable descending-by-size insertion sort. -/
def insertBySize (x : List Article) : List (List Article) → List (List Article)
  | [] => [x]
  | y :: ys => if y.length ≤ x.length then x :: y :: ys else y :: insertBySize x ys

/-- `clusters.sort(key=len, reverse=True)`: Python's sort is stable, so the
result is the unique descending-by-size ordering in which equal-sized
clusters keep their original relative order; this stable insertion sort
computes exactly that ordering. -/
def sortBySize : List (List Article) → List (List Article)
  | [] => []
  | x :: xs => insertBySize x (sortBySize xs)

/-- Embeds `SimilarityAnalyzer.cluster_by_exact_match`: group by normalized
title (skipping empty), keep groups with at least two members, sort by
descending size. -/
def cluster_by_exact_match (articles : List Article) : List (List Article) :=
  sortBySize (((buildGroups articles).map Prod.snd).filter (fun g => 2 ≤ g.length))

/-- The numeric content of the report dictionary built by
`SimilarityAnalyzer.generate_report`.  The two rates are stored by the
source as strings formatted to two decimal places (`"%.2f%%"`); the
embedding keeps the exact percentage values.  `generated_at` and
`input_directory` are environment data outside the embedding. -/
structure Report where
  similarity_threshold : ℚ
  total_articles_analyzed : Nat
  num_clusters : Nat
  total_articles_in_clusters : Nat
  duplication_rate : ℚ
  largest_cluster_size : Nat
  num_pairs : Nat
  truly_unique_articles : ℤ
  uniqueness_rate : ℚ
deriving DecidableEq

/-- Embeds `SimilarityAnalyzer.generate_report` as a function of the loaded
articles, the stored duplicates and the stored clusters. -/
def generate_report (articles : List Article) (duplicates : List SimilarPair)
    (clusters : List (List Article)) (similarity_threshold : ℚ) : Report :=
  let total_articles := articles.length
  let num_similar_pairs := duplicates.length
  let num_clusters := clusters.length
  let articles_in_clusters := (clusters.map List.length).sum
  let unique_articles : ℤ :=
    (total_articles : ℤ) - (articles_in_clusters : ℤ) + (num_clusters : ℤ)
  let duplication_rate : ℚ :=
    if 0 < total_articles then (articles_in_clusters : ℚ) / (total_articles : ℚ) * 100
    else 0
  let uniqueness_rate : ℚ :=
    if 0 < total_articles then (unique_articles : ℚ) / (total_articles : ℚ) * 100
    else 0
  { similarity_threshold := similarity_threshold
    total_articles_analyzed := total_articles
    num_clusters := num_clusters
    total_articles_in_clusters := articles_in_clusters
    duplication_rate := duplication_rate
    largest_cluster_size := (clusters.headD []).length
    num_pairs := num_similar_pairs
    truly_unique_articles := unique_articles
    uniqueness_rate := uniqueness_rate }

/-- Embeds `SimilarityAnalyzer.load_articles`: after the CSV file is parsed,
the analyzer stores `list(reader)` — every parsed row, in file order.
File existence checking and CSV decoding are I/O outside the embedding. -/
def load_articles (rows : List Article) : List Article := rows

/-- The hardcoded `max_articles_for_pairwise` cutoff in `analyze`. -/
def max_articles_for_pairwise : Nat := 10000

/-- The analyzer state `analyze` leaves behind (and feeds to
`generate_report`). -/
structure AnalyzeResult where
  clusters : List (List Article)
  duplicates : List SimilarPair
  report : Report
deriving DecidableEq

/-- Embeds `SimilarityAnalyzer.analyze` on an already-loaded corpus:
exact-match clustering always runs; `find_similar_pairs` (with
`ngram_size=3`) runs only when the corpus size is at most
`max_articles_for_pairwise`, otherwise `self.duplicates` keeps its initial
value `[]`; finally the report is generated from the resulting state. -/
def analyze (articles : List Article) (similarity_threshold : ℚ) : AnalyzeResult :=
  let clusters := cluster_by_exact_match articles
  let duplicates :=
    if articles.length ≤ max_articles_for_pairwise then
      find_similar_pairs articles 3 similarity_threshold
    else []
  ⟨clusters, duplicates,
    generate_report articles duplicates clusters similarity_threshold⟩

/-! ### Idempotence of `normalize_text` (claim C4) -/

theorem normalize_text_nil : normalize_text [] = [] := by
  simp [normalize_text]

theorem map_eq_self_of_mem {α : Type} {f : α → α} {l : List α}
    (h : ∀ a ∈ l, f a = a) : l.map f = l := by
  rw [List.map_congr_left (g := id) h, List.map_id]

theorem pyToLower_eq_self {c : Char} (h : isLowerAlnum c = true ∨ c = ' ') :
    pyToLower c = c := by
  unfold pyToLower
  rw [if_neg]
  rcases h with h | h
  · unfold isLowerAlnum at h
    simp at h
    omega
  · subst h
    decide

theorem lowerStr_eq_self {s : List Char}
    (h : ∀ c ∈ s, isLowerAlnum c = true ∨ c = ' ') : lowerStr s = s :=
  map_eq_self_of_mem (fun c hc => pyToLower_eq_self (h c hc))

theorem schemeRest_colon_mem {l r : List Char} (h : schemeRest l = some r) :
    ':' ∈ l := by
  unfold schemeRest at h
  split at h <;> simp_all

theorem urlMatch_none_of_no_colon {l : List Char} (h : ':' ∉ l) :
    urlMatch l = none := by
  unfold urlMatch
  cases hs : schemeRest l with
  | none => rfl
  | some t => exact absurd (schemeRest_colon_mem hs) h

theorem removeUrls_eq_self {l : List Char} (h : ':' ∉ l) : removeUrls l = l := by
  induction l using removeUrls.induct with
  | case1 => rw [removeUrls]
  | case2 c cs rest hm ih =>
    rw [urlMatch_none_of_no_colon h] at hm
    exact absurd hm (by simp)
  | case3 c cs hm ih =>
    rw [removeUrls]
    split
    · rename_i rest heq
      rw [urlMatch_none_of_no_colon h] at heq
      exact absurd heq (by simp)
    · have : ':' ∉ cs := fun hc => h (List.mem_cons_of_mem c hc)
      rw [ih this]

theorem keepAlnum_eq_self {c : Char} (h : isLowerAlnum c = true ∨ c = ' ') :
    keepAlnum c = c := by
  unfold keepAlnum
  rcases h with h | h
  · rw [if_pos (by simp [h])]
  · subst h
    decide

theorem keepAlnumSpaces_eq_self {s : List Char}
    (h : ∀ c ∈ s, isLowerAlnum c = true ∨ c = ' ') : keepAlnumSpaces s = s :=
  map_eq_self_of_mem (fun c hc => keepAlnum_eq_self (h c hc))

theorem keepAlnum_class (c : Char) :
    isLowerAlnum (keepAlnum c) = true ∨ pyIsSpace (keepAlnum c) = true := by
  unfold keepAlnum
  by_cases h : isLowerAlnum c || pyIsSpace c
  · rw [if_pos h]
    simpa using h
  · rw [if_neg h]
    right
    decide

theorem keepAlnumSpaces_class {s : List Char} {c : Char}
    (h : c ∈ keepAlnumSpaces s) :
    isLowerAlnum c = true ∨ pyIsSpace c = true := by
  unfold keepAlnumSpaces at h
  rcases List.mem_map.mp h with ⟨d, _, rfl⟩
  exact keepAlnum_class d

theorem pyWords_sound {l w : List Char} (h : w ∈ pyWords l) :
    w ≠ [] ∧ ∀ c ∈ w, pyIsSpace c = false := by
  induction l using pyWords.induct with
  | case1 => simp [pyWords] at h
  | case2 c cs hc ih =>
    rw [pyWords, if_pos hc] at h
    exact ih h
  | case3 c cs hc ih =>
    rw [pyWords, if_neg hc] at h
    rcases List.mem_cons.mp h with rfl | h2
    · refine ⟨by simp, ?_⟩
      intro d hd
      rcases List.mem_cons.mp hd with rfl | hd2
      · simpa using hc
      · simpa using List.mem_takeWhile_imp hd2
    · exact ih h2

theorem pyWords_subset {l w : List Char} (hw : w ∈ pyWords l) :
    ∀ c ∈ w, c ∈ l := by
  induction l using pyWords.induct with
  | case1 => simp [pyWords] at hw
  | case2 c cs hc ih =>
    rw [pyWords, if_pos hc] at hw
    exact fun d hd => List.mem_cons_of_mem c (ih hw d hd)
  | case3 c cs hc ih =>
    rw [pyWords, if_neg hc] at hw
    rcases List.mem_cons.mp hw with rfl | h2
    · intro d hd
      rcases List.mem_cons.mp hd with rfl | hd2
      · simp
      · exact List.mem_cons_of_mem c ((List.takeWhile_sublist _).subset hd2)
    · exact fun d hd =>
        List.mem_cons_of_mem c ((List.dropWhile_sublist _).subset (ih h2 d hd))

theorem joinSp_mem {ws : List (List Char)} {c : Char} (h : c ∈ joinSp ws) :
    c = ' ' ∨ ∃ w ∈ ws, c ∈ w := by
  induction ws with
  | nil => simp [joinSp] at h
  | cons w ws ih =>
    cases ws with
    | nil =>
      right
      exact ⟨w, by simp, by simpa [joinSp] using h⟩
    | cons w2 ws2 =>
      have hj : joinSp (w :: w2 :: ws2) = w ++ ' ' :: joinSp (w2 :: ws2) := rfl
      rw [hj] at h
      rcases List.mem_append.mp h with h1 | h1
      · exact Or.inr ⟨w, by simp, h1⟩
      · rcases List.mem_cons.mp h1 with rfl | h2
        · exact Or.inl rfl
        · rcases ih h2 with h3 | ⟨w3, hw3, hc3⟩
          · exact Or.inl h3
          · exact Or.inr ⟨w3, List.mem_cons_of_mem w hw3, hc3⟩

theorem normalize_text_class {s : List Char} {c : Char}
    (h : c ∈ normalize_text s) : isLowerAlnum c = true ∨ c = ' ' := by
  unfold normalize_text at h
  split at h
  · simp at h
  · unfold normalizeWhitespace at h
    rcases joinSp_mem h with rfl | ⟨w, hw, hc⟩
    · exact Or.inr rfl
    · have h1 := keepAlnumSpaces_class (pyWords_subset hw c hc)
      have h2 := (pyWords_sound hw).2 c hc
      rcases h1 with h1 | h1
      · exact Or.inl h1
      · rw [h1] at h2
        exact absurd h2 (by simp)

theorem pyWords_word_append {w t : List Char} (hw : w ≠ [])
    (hc : ∀ c ∈ w, pyIsSpace c = false) :
    pyWords (w ++ ' ' :: t) = w :: pyWords t := by
  cases w with
  | nil => contradiction
  | cons c cs =>
    have hcne : pyIsSpace c = false := hc c (by simp)
    have hcs : ∀ d ∈ cs, (fun d => !pyIsSpace d) d = true := by
      intro d hd
      simp [hc d (List.mem_cons_of_mem c hd)]
    rw [List.cons_append, pyWords, if_neg (by simp [hcne])]
    rw [List.takeWhile_append_of_pos hcs, List.dropWhile_append_of_pos hcs]
    have ht : List.takeWhile (fun d => !pyIsSpace d) (' ' :: t) = [] := by
      rw [List.takeWhile_cons_of_neg (by decide)]
    have hd : List.dropWhile (fun d => !pyIsSpace d) (' ' :: t) = ' ' :: t := by
      rw [List.dropWhile_cons_of_neg (by decide)]
    rw [ht, hd, List.append_nil, pyWords, if_pos (by decide)]

theorem pyWords_single {w : List Char} (hw : w ≠ [])
    (hc : ∀ c ∈ w, pyIsSpace c = false) : pyWords w = [w] := by
  cases w with
  | nil => contradiction
  | cons c cs =>
    have hcne : pyIsSpace c = false := hc c (by simp)
    have hcs : ∀ d ∈ cs, (fun d => !pyIsSpace d) d = true := by
      intro d hd
      simp [hc d (List.mem_cons_of_mem c hd)]
    rw [pyWords, if_neg (by simp [hcne])]
    rw [List.takeWhile_eq_self_iff.mpr hcs, List.dropWhile_eq_nil_iff.mpr ?_]
    · rw [pyWords]
    · intro x hx
      simpa using hcs x hx

theorem pyWords_joinSp {ws : List (List Char)}
    (h : ∀ w ∈ ws, w ≠ [] ∧ ∀ c ∈ w, pyIsSpace c = false) :
    pyWords (joinSp ws) = ws := by
  induction ws with
  | nil => rw [joinSp, pyWords]
  | cons w ws ih =>
    cases ws with
    | nil =>
      have hw := h w (by simp)
      rw [joinSp]
      exact pyWords_single hw.1 hw.2
    | cons w2 ws2 =>
      have hw := h w (by simp)
      have hj : joinSp (w :: w2 :: ws2) = w ++ ' ' :: joinSp (w2 :: ws2) := rfl
      rw [hj, pyWords_word_append hw.1 hw.2,
        ih (fun v hv => h v (List.mem_cons_of_mem w hv))]

theorem normalizeWhitespace_fix (s : List Char) :
    normalizeWhitespace (normalizeWhitespace s) = normalizeWhitespace s := by
  unfold normalizeWhitespace
  rw [pyWords_joinSp (fun w hw => pyWords_sound hw)]

theorem normalize_text_ne_nil {t : List Char} (ht : t ≠ []) :
    normalize_text t =
      normalizeWhitespace (keepAlnumSpaces (removeUrls (lowerStr t))) := by
  unfold normalize_text
  rw [if_neg ht]

/-- C4: `normalize_text` is idempotent: re-normalizing a normalized string
yields the same string, for every input string. -/
theorem normalize_text_idempotent (s : List Char) :
    normalize_text (normalize_text s) = normalize_text s := by
  by_cases h0 : normalize_text s = []
  · rw [h0, normalize_text_nil]
  · have hchars : ∀ c ∈ normalize_text s, isLowerAlnum c = true ∨ c = ' ' :=
      fun c hc => normalize_text_class hc
    have hcolon : ':' ∉ normalize_text s := by
      intro hc
      rcases hchars ':' hc with h | h
      · exact absurd h (by decide)
      · exact absurd h (by decide)
    have hs : s ≠ [] := by
      intro h
      rw [h, normalize_text_nil] at h0
      exact h0 rfl
    rw [normalize_text_ne_nil h0, lowerStr_eq_self hchars,
      removeUrls_eq_self hcolon, keepAlnumSpaces_eq_self hchars,
      normalize_text_ne_nil hs, normalizeWhitespace_fix]

/-! ### N-gram fingerprints (claims C3, C1, C10) -/

/-- C3: `generate_ngrams` first normalizes; a normalized string shorter than
`n` yields the singleton of the whole normalized string (the empty string
included), and otherwise the result is exactly the set of all length-`n`
contiguous substrings of the normalized string, each counted once. -/
theorem generate_ngrams_spec (text : List Char) (n : Nat) (hn : 1 ≤ n)
    (s : List Char) :
    s ∈ generate_ngrams text n ↔
      (if (normalize_text text).length < n then s = normalize_text text
       else s.length = n ∧
         ∃ l r : List Char, l ++ s ++ r = normalize_text text) := by
  unfold generate_ngrams
  by_cases h : (normalize_text text).length < n
  · rw [if_pos h, if_pos h]
    exact Finset.mem_singleton
  · rw [if_neg h, if_neg h]
    push_neg at h
    constructor
    · intro hs
      rw [List.mem_toFinset] at hs
      rcases List.mem_map.mp hs with ⟨i, hi, rfl⟩
      rw [List.mem_range] at hi
      have hin : i + n ≤ (normalize_text text).length := by omega
      refine ⟨?_, (normalize_text text).take i, (normalize_text text).drop (i + n), ?_⟩
      · rw [List.length_take, List.length_drop]
        omega
      · have hdd : (normalize_text text).drop (i + n) =
            ((normalize_text text).drop i).drop n := (List.drop_drop n i _).symm
        rw [hdd, List.append_assoc, List.take_append_drop, List.take_append_drop]
    · rintro ⟨hlen, l, r, heq⟩
      rw [List.mem_toFinset]
      refine List.mem_map.mpr ⟨l.length, ?_, ?_⟩
      · rw [List.mem_range]
        have hlt : (normalize_text text).length = l.length + s.length + r.length := by
          rw [← heq]
          simp
          omega
        omega
      · rw [← heq, List.append_assoc, List.drop_left, ← hlen, List.take_left]

/-- The fingerprint set is never empty: it is a singleton for short
normalized titles and contains at least the first window otherwise. -/
theorem generate_ngrams_nonempty (text : List Char) {n : Nat} :
    generate_ngrams text n ≠ ∅ := by
  unfold generate_ngrams
  by_cases h : (normalize_text text).length < n
  · rw [if_pos h]
    simp
  · rw [if_neg h]
    refine Finset.ne_empty_of_mem (a := ((normalize_text text).drop 0).take n) ?_
    rw [List.mem_toFinset]
    refine List.mem_map.mpr ⟨0, ?_, rfl⟩
    rw [List.mem_range]
    omega

theorem jaccard_self {A : Finset (List Char)} (h : A ≠ ∅) :
    calculate_jaccard_similarity A A = 1 := by
  unfold calculate_jaccard_similarity
  rw [if_neg (by simp [h])]
  have hc : A.card ≠ 0 := by
    simp [Finset.card_eq_zero]
    exact h
  rw [Finset.inter_self, Finset.union_self, if_neg hc]
  exact div_self (by exact_mod_cast hc)

theorem jaccard_nonneg (A B : Finset (List Char)) :
    0 ≤ calculate_jaccard_similarity A B := by
  unfold calculate_jaccard_similarity
  by_cases h : A = ∅ ∨ B = ∅
  · rw [if_pos h]
  · rw [if_neg h]
    by_cases hu : (A ∪ B).card = 0
    · rw [if_pos hu]
    · rw [if_neg hu]
      positivity

theorem jaccard_le_one (A B : Finset (List Char)) :
    calculate_jaccard_similarity A B ≤ 1 := by
  unfold calculate_jaccard_similarity
  by_cases h : A = ∅ ∨ B = ∅
  · rw [if_pos h]
    norm_num
  · rw [if_neg h]
    by_cases hu : (A ∪ B).card = 0
    · rw [if_pos hu]
      norm_num
    · rw [if_neg hu]
      rw [div_le_one (by exact_mod_cast Nat.pos_of_ne_zero hu)]
      exact_mod_cast Finset.card_le_card Finset.inter_subset_union

/-! ### Enumeration of the pairwise comparisons (claims C2, C10) -/

/-- The index pairs `(i, j)` with `i < j < m` in the visit order of the two
nested loops of `find_similar_pairs` (ascending lexicographic order),
described by peeling off the outer loop's first iteration. -/
def comparedPairs : Nat → List (Nat × Nat)
  | 0 => []
  | k + 1 =>
    ((List.range k).map (fun j => (0, j + 1))) ++
      (comparedPairs k).map (fun p => (p.1 + 1, p.2 + 1))

/-- Strict lexicographic order on index pairs. -/
def lexLt (p q : Nat × Nat) : Prop :=
  p.1 < q.1 ∨ (p.1 = q.1 ∧ p.2 < q.2)

theorem comparedPairs_mem (m i j : Nat) :
    (i, j) ∈ comparedPairs m ↔ i < j ∧ j < m := by
  induction m generalizing i j with
  | zero => simp [comparedPairs]
  | succ k ih =>
    rw [comparedPairs, List.mem_append]
    constructor
    · rintro (h | h)
      · rcases List.mem_map.mp h with ⟨j0, hj0, he⟩
        rw [List.mem_range] at hj0
        have h1 : i = 0 := (Prod.mk.injEq _ _ _ _).mp he.symm |>.1
        have h2 : j = j0 + 1 := (Prod.mk.injEq _ _ _ _).mp he.symm |>.2
        omega
      · rcases List.mem_map.mp h with ⟨p, hp, he⟩
        have h1 : i = p.1 + 1 := (Prod.mk.injEq _ _ _ _).mp he.symm |>.1
        have h2 : j = p.2 + 1 := (Prod.mk.injEq _ _ _ _).mp he.symm |>.2
        have h3 : p.1 < p.2 ∧ p.2 < k := by
          rw [← ih p.1 p.2]
          exact hp
        omega
    · rintro ⟨hij, hjm⟩
      cases i with
      | zero =>
        refine Or.inl (List.mem_map.mpr ⟨j - 1, ?_, ?_⟩)
        · rw [List.mem_range]
          omega
        · have : j - 1 + 1 = j := by omega
          rw [this]
      | succ i0 =>
        refine Or.inr (List.mem_map.mpr ⟨(i0, j - 1), ?_, ?_⟩)
        · rw [ih]
          omega
        · have : j - 1 + 1 = j := by omega
          simp [this]

theorem comparedPairs_length (m : Nat) :
    (comparedPairs m).length * 2 = m * (m - 1) := by
  induction m with
  | zero => rfl
  | succ k ih =>
    rw [comparedPairs]
    rw [List.length_append, List.length_map, List.length_map, List.length_range]
    cases k with
    | zero =>
      simp at ih ⊢
      rfl
    | succ k2 =>
      simp only [Nat.succ_sub_one] at ih ⊢
      nlinarith [ih]

theorem comparedPairs_pairwise (m : Nat) : (comparedPairs m).Pairwise lexLt := by
  induction m with
  | zero => simp [comparedPairs]
  | succ k ih =>
    rw [comparedPairs]
    rw [List.pairwise_append]
    refine ⟨?_, ?_, ?_⟩
    · rw [List.pairwise_map]
      exact (List.pairwise_lt_range k).imp (fun h => Or.inr ⟨rfl, by omega⟩)
    · rw [List.pairwise_map]
      refine ih.imp ?_
      intro a b h
      rcases h with h | ⟨h1, h2⟩
      · exact Or.inl (by omega)
      · exact Or.inr ⟨by omega, by omega⟩
    · intro a ha b hb
      rcases List.mem_map.mp ha with ⟨j0, _, rfl⟩
      rcases List.mem_map.mp hb with ⟨p, _, rfl⟩
      exact Or.inl (by omega)

theorem comparedPairs_nodup (m : Nat) : (comparedPairs m).Nodup := by
  refine (comparedPairs_pairwise m).imp ?_
  intro a b h he
  subst he
  rcases h with h | ⟨h1, h2⟩ <;> omega

theorem filterMap_eq_range_getD {α β : Type} (f : α → Option β) (l : List α)
    (d : α) :
    l.filterMap f = (List.range l.length).filterMap (fun i => f (l.getD i d)) := by
  induction l with
  | nil => rfl
  | cons x xs ih =>
    rw [List.length_cons, List.range_succ_eq_map, List.filterMap_cons,
      List.filterMap_cons, List.filterMap_map]
    have he : ((fun i => f ((x :: xs).getD i d)) ∘ Nat.succ) =
        (fun i => f (xs.getD i d)) := by
      funext i
      simp [List.getD_cons_succ]
    rw [he, ← ih]
    rfl

/-- `pairsFrom` visits exactly the index pairs of `comparedPairs`, in order,
emitting a pair exactly when its similarity reaches the threshold. -/
theorem pairsFrom_eq (thr : ℚ) (xs : List (Article × Finset (List Char)))
    (d : Article × Finset (List Char)) :
    pairsFrom thr xs = (comparedPairs xs.length).filterMap (fun ij =>
      let sim := calculate_jaccard_similarity (xs.getD ij.1 d).2 (xs.getD ij.2 d).2
      if thr ≤ sim then
        some ⟨mkArticleOut (xs.getD ij.1 d).1, mkArticleOut (xs.getD ij.2 d).1,
          round4 sim⟩
      else none) := by
  induction xs with
  | nil => rfl
  | cons x rest ih =>
    rw [pairsFrom, List.length_cons, comparedPairs, List.filterMap_append,
      List.filterMap_map, List.filterMap_map]
    congr 1
    · rw [filterMap_eq_range_getD _ rest d]
      apply List.filterMap_congr
      intro i _
      simp [List.getD_cons_succ]

/-- Default for out-of-range `getD` lookups (never reached for index pairs
of `comparedPairs`). -/
def defaultArticle : Article := ⟨[], [], []⟩

/-- What `find_similar_pairs` does at index pair `ij`: emit the pair
exactly when the Jaccard similarity of the two fingerprints reaches the
threshold, otherwise emit nothing. -/
def emitAt (articles : List Article) (ngram_size : Nat) (thr : ℚ)
    (ij : Nat × Nat) : Option SimilarPair :=
  let a1 := articles.getD ij.1 defaultArticle
  let a2 := articles.getD ij.2 defaultArticle
  let sim := calculate_jaccard_similarity (generate_ngrams a1.title ngram_size)
    (generate_ngrams a2.title ngram_size)
  if thr ≤ sim then some ⟨mkArticleOut a1, mkArticleOut a2, round4 sim⟩ else none

theorem getD_map_pair (articles : List Article) (n : Nat) (i : Nat) :
    ((articles.map (fun a => (a, generate_ngrams a.title n))).getD i
      (defaultArticle, generate_ngrams defaultArticle.title n)) =
    (articles.getD i defaultArticle,
      generate_ngrams (articles.getD i defaultArticle).title n) := by
  induction articles generalizing i with
  | nil => rfl
  | cons x xs ih =>
    cases i with
    | zero => rfl
    | succ i0 => exact ih i0

theorem find_similar_pairs_eq (articles : List Article) (n : Nat) (thr : ℚ) :
    find_similar_pairs articles n thr =
      (comparedPairs articles.length).filterMap (emitAt articles n thr) := by
  unfold find_similar_pairs
  rw [pairsFrom_eq thr _ (defaultArticle, generate_ngrams defaultArticle.title n),
    List.length_map]
  apply List.filterMap_congr
  intro ij _
  simp only [getD_map_pair]
  rfl

theorem filterMap_length_of_isSome {α β : Type} (f : α → Option β)
    (l : List α) (h : ∀ a ∈ l, (f a).isSome = true) :
    (l.filterMap f).length = l.length := by
  induction l with
  | nil => rfl
  | cons x xs ih =>
    rw [List.filterMap_cons]
    cases hf : f x with
    | none =>
      have := h x (by simp)
      rw [hf] at this
      exact absurd this (by simp)
    | some b =>
      rw [List.length_cons, List.length_cons,
        ih (fun a ha => h a (List.mem_cons_of_mem x ha))]

/-- C2: `find_similar_pairs` evaluates every unordered index pair `(i, j)`
with `i < j` exactly once — `comparedPairs m` enumerates each such pair
once (no duplicates), in ascending lexicographic order, `m*(m-1)/2` pairs
in total — and the returned list is exactly that enumeration filtered by
`emitAt`, which emits a pair iff its similarity is `>=` the threshold;
since every enumerated pair has `i < j`, no pair appears in both
orientations. -/
theorem find_similar_pairs_enumeration (articles : List Article)
    (ngram_size : Nat) (thr : ℚ) :
    find_similar_pairs articles ngram_size thr =
        (comparedPairs articles.length).filterMap
          (emitAt articles ngram_size thr) ∧
      (comparedPairs articles.length).length =
        articles.length * (articles.length - 1) / 2 ∧
      (∀ i j : Nat,
        (i, j) ∈ comparedPairs articles.length ↔ i < j ∧ j < articles.length) ∧
      (comparedPairs articles.length).Pairwise lexLt ∧
      (comparedPairs articles.length).Nodup :=
  ⟨find_similar_pairs_eq articles ngram_size thr,
   by have := comparedPairs_length articles.length; omega,
   fun i j => comparedPairs_mem articles.length i j,
   comparedPairs_pairwise articles.length,
   comparedPairs_nodup articles.length⟩

/-- C10: the threshold is not validated; a threshold `≤ 0` keeps every one
of the `m*(m-1)/2` pairs (every similarity is `≥ 0`), and a threshold
`> 1` keeps none (every similarity is `≤ 1`). -/
theorem find_similar_pairs_threshold_extremes (articles : List Article)
    (ngram_size : Nat) (thr_lo thr_hi : ℚ)
    (hlo : thr_lo ≤ 0) (hhi : 1 < thr_hi) :
    (find_similar_pairs articles ngram_size thr_lo).length =
        articles.length * (articles.length - 1) / 2 ∧
      find_similar_pairs articles ngram_size thr_hi = [] := by
  constructor
  · rw [find_similar_pairs_eq, filterMap_length_of_isSome]
    · have := comparedPairs_length articles.length
      omega
    · intro ij _
      simp only [emitAt]
      rw [if_pos (le_trans hlo (jaccard_nonneg _ _))]
      rfl
  · rw [find_similar_pairs_eq]
    refine List.filterMap_eq_nil_iff.mpr ?_
    intro ij _
    simp only [emitAt]
    rw [if_neg]
    intro hle
    have := jaccard_le_one
      (generate_ngrams ((articles.getD ij.1 defaultArticle).title) ngram_size)
      (generate_ngrams ((articles.getD ij.2 defaultArticle).title) ngram_size)
    linarith

/-! ### Exact-match clustering (claims C6, C1) -/

/-- The distinct non-empty normalized titles of the corpus, in
first-encounter order — the key order of the insertion-ordered
`title_groups` dictionary. -/
def keyList : List Article → List (List Char)
  | [] => []
  | a :: arts =>
    let k := normalize_text a.title
    if k = [] then keyList arts
    else k :: (keyList arts).filter (fun x => x != k)

/-- The group carried by key `k`: the articles whose title normalizes to
`k`, in corpus order. -/
def groupOf (arts : List Article) (k : List Char) : List Article :=
  arts.filter (fun a => normalize_text a.title == k)

/-- Canonical form of the grouping dictionary: keys in first-encounter
order, each with its full group. -/
def mkGroups (l : List Article) : List (List Char × List Article) :=
  (keyList l).map (fun k => (k, groupOf l k))

theorem mem_keyList {arts : List Article} {k : List Char} :
    k ∈ keyList arts ↔
      k ≠ [] ∧ ∃ a ∈ arts, normalize_text a.title = k := by
  induction arts with
  | nil => simp [keyList]
  | cons a arts ih =>
    rw [keyList]
    by_cases h : normalize_text a.title = []
    · rw [if_pos h, ih]
      constructor
      · rintro ⟨hk, b, hb, hkb⟩
        exact ⟨hk, b, List.mem_cons_of_mem a hb, hkb⟩
      · rintro ⟨hk, b, hb, hkb⟩
        rcases List.mem_cons.mp hb with rfl | hb2
        · rw [h] at hkb
          exact absurd hkb.symm hk
        · exact ⟨hk, b, hb2, hkb⟩
    · rw [if_neg h]
      constructor
      · intro hm
        rcases List.mem_cons.mp hm with rfl | hm2
        · exact ⟨h, a, by simp⟩
        · have := List.mem_filter.mp hm2
          rcases ih.mp this.1 with ⟨hk, b, hb, hkb⟩
          exact ⟨hk, b, List.mem_cons_of_mem a hb, hkb⟩
      · rintro ⟨hk, b, hb, hkb⟩
        by_cases hka : k = normalize_text a.title
        · exact hka ▸ List.mem_cons_self _ _
        · rcases List.mem_cons.mp hb with rfl | hb2
          · exact absurd hkb (fun he => hka he.symm)
          · refine List.mem_cons_of_mem _ (List.mem_filter.mpr ⟨?_, ?_⟩)
            · exact ih.mpr ⟨hk, b, hb2, hkb⟩
            · simpa using hka

theorem keyList_nodup (arts : List Article) : (keyList arts).Nodup := by
  induction arts with
  | nil => simp [keyList]
  | cons a arts ih =>
    rw [keyList]
    by_cases h : normalize_text a.title = []
    · rw [if_pos h]
      exact ih
    · rw [if_neg h]
      refine List.Pairwise.cons ?_ (ih.filter _)
    -- the head key is distinct from every filtered tail key
      intro b hb
      have h2 := (List.mem_filter.mp hb).2
      intro he
      rw [he] at h2
      simp at h2

theorem groupOf_append_one (l : List Article) (a : Article) (k : List Char) :
    groupOf (l ++ [a]) k =
      if normalize_text a.title = k then groupOf l k ++ [a] else groupOf l k := by
  unfold groupOf
  rw [List.filter_append]
  by_cases h : normalize_text a.title = k
  · rw [if_pos h]
    simp [h]
  · rw [if_neg h]
    simp [h]


theorem groupOf_eq_nil {l : List Article} {k : List Char} (hk : k ≠ [])
    (h : k ∉ keyList l) : groupOf l k = [] := by
  unfold groupOf
  rw [List.filter_eq_nil_iff]
  intro a ha hp
  refine h (mem_keyList.mpr ⟨hk, a, ha, ?_⟩)
  simpa using hp

theorem keyList_cons_of_nil {b : Article} {l : List Article}
    (hb : normalize_text b.title = []) : keyList (b :: l) = keyList l := by
  simp [keyList, hb]

theorem keyList_cons_of_ne {b : Article} {l : List Article}
    (hb : normalize_text b.title ≠ []) :
    keyList (b :: l) = normalize_text b.title ::
      (keyList l).filter (fun x => x != normalize_text b.title) := by
  simp [keyList, hb]

theorem keyList_append_one (l : List Article) (a : Article) :
    keyList (l ++ [a]) =
      if normalize_text a.title = [] ∨ normalize_text a.title ∈ keyList l
      then keyList l
      else keyList l ++ [normalize_text a.title] := by
  induction l with
  | nil =>
    by_cases h : normalize_text a.title = []
    · simp [keyList, h]
    · simp [keyList, h]
  | cons b l ih =>
    rw [List.cons_append]
    by_cases hb : normalize_text b.title = []
    · rw [keyList_cons_of_nil hb, keyList_cons_of_nil hb, ih]
    · rw [keyList_cons_of_ne hb, keyList_cons_of_ne hb, ih]
      by_cases ha : normalize_text a.title = []
      · rw [if_pos (Or.inl ha), if_pos (Or.inl ha)]
      · by_cases hmem : normalize_text a.title ∈ keyList l
        · rw [if_pos (Or.inr hmem), if_pos (Or.inr ?hm1)]
          case hm1 =>
            by_cases he : normalize_text a.title = normalize_text b.title
            · exact he ▸ List.mem_cons_self _ _
            · exact List.mem_cons_of_mem _
                (List.mem_filter.mpr ⟨hmem, by simpa using he⟩)
        · by_cases he : normalize_text a.title = normalize_text b.title
          · rw [if_neg (by tauto), if_pos (Or.inr (he ▸ List.mem_cons_self _ _))]
            rw [List.filter_append]
            simp [he]
          · rw [if_neg (by tauto), if_neg ?hm2]
            case hm2 =>
              rintro (h1 | h1)
              · exact ha h1
              · rcases List.mem_cons.mp h1 with h2 | h2
                · exact he h2
                · exact hmem (List.mem_filter.mp h2).1
            rw [List.filter_append]
            have hf : List.filter (fun x => x != normalize_text b.title)
                [normalize_text a.title] = [normalize_text a.title] := by
              simp [he]
            rw [hf]
            exact (List.cons_append _ _ _).symm

theorem addToGroups_cons {k1 : List Char} {g1 : List Article}
    {rest : List (List Char × List Article)} {key : List Char} {a : Article} :
    addToGroups ((k1, g1) :: rest) key a =
      if k1 = key then (k1, g1 ++ [a]) :: rest
      else (k1, g1) :: addToGroups rest key a := rfl

theorem addToGroups_not_mem {G : List (List Char × List Article)}
    {k : List Char} (h : ∀ p ∈ G, p.1 ≠ k) (a : Article) :
    addToGroups G k a = G ++ [(k, [a])] := by
  induction G with
  | nil => rfl
  | cons p G ih =>
    obtain ⟨k1, g1⟩ := p
    rw [addToGroups_cons, if_neg (h (k1, g1) (by simp))]
    rw [ih (fun q hq => h q (List.mem_cons_of_mem _ hq))]
    rfl

theorem addToGroups_map {keys : List (List Char)} {k : List Char} {a : Article}
    (f g : List Char → List Char × List Article)
    (hmem : k ∈ keys) (hnd : keys.Nodup)
    (hfst : ∀ x, (f x).1 = x)
    (heq : ∀ x ∈ keys, x ≠ k → g x = f x)
    (hupd : g k = (k, (f k).2 ++ [a])) :
    addToGroups (keys.map f) k a = keys.map g := by
  induction keys with
  | nil => simp at hmem
  | cons x keys ih =>
    rw [List.map_cons, List.map_cons]
    have hfx : f x = ((f x).1, (f x).2) := rfl
    rw [hfx, addToGroups_cons, hfst x]
    by_cases hx : x = k
    · rw [if_pos hx]
      subst hx
      have hmapeq : keys.map f = keys.map g := by
        refine (List.map_congr_left ?_).symm
        intro y hy
        have hy_ne : y ≠ x := by
          intro he
          subst he
          exact (List.nodup_cons.mp hnd).1 hy
        exact heq y (List.mem_cons_of_mem x hy) hy_ne
      rw [hmapeq, hupd]
    · rw [if_neg hx]
      have hmem2 : k ∈ keys := by
        rcases List.mem_cons.mp hmem with he | hm
        · exact absurd he.symm hx
        · exact hm
      rw [ih hmem2 (List.nodup_cons.mp hnd).2
        (fun y hy hyk => heq y (List.mem_cons_of_mem x hy) hyk)]
      rw [heq x (List.mem_cons_self _ _) hx]
      have hpair : (x, (f x).2) = f x := Prod.ext (hfst x).symm rfl
      rw [hpair]

/-- One iteration of the grouping loop turns the canonical dictionary for a
prefix of the corpus into the canonical dictionary for the prefix extended
by one article. -/
theorem step_one (l : List Article) (a : Article) :
    (if normalize_text a.title = [] then mkGroups l
     else addToGroups (mkGroups l) (normalize_text a.title) a) =
    mkGroups (l ++ [a]) := by
  by_cases h0 : normalize_text a.title = []
  · rw [if_pos h0]
    unfold mkGroups
    rw [keyList_append_one, if_pos (Or.inl h0)]
    refine List.map_congr_left ?_
    intro k hk
    rw [groupOf_append_one, if_neg ?_]
    intro he
    exact (mem_keyList.mp hk).1 (h0 ▸ he).symm
  · rw [if_neg h0]
    by_cases hmem : normalize_text a.title ∈ keyList l
    · unfold mkGroups
      rw [keyList_append_one, if_pos (Or.inr hmem)]
      refine addToGroups_map _ _ hmem (keyList_nodup l) (fun x => rfl) ?_ ?_
      · intro x _ hxk
        have : normalize_text a.title ≠ x := fun he => hxk he.symm
        rw [groupOf_append_one, if_neg this]
      · rw [groupOf_append_one, if_pos rfl]
    · unfold mkGroups
      rw [keyList_append_one, if_neg (by tauto), List.map_append]
      rw [addToGroups_not_mem (G := (keyList l).map
        (fun k => (k, groupOf l k))) ?_ a]
      · congr 1
        · refine List.map_congr_left ?_
          intro k hk
          have hne : normalize_text a.title ≠ k := by
            intro he
            exact hmem (he ▸ hk)
          rw [groupOf_append_one, if_neg hne]
        · rw [List.map_singleton, groupOf_append_one, if_pos rfl,
            groupOf_eq_nil h0 hmem, List.nil_append]
      · intro p hp
        rcases List.mem_map.mp hp with ⟨k, hk, rfl⟩
        intro he
        exact hmem (he ▸ hk)

theorem buildGroups_eq (arts : List Article) : buildGroups arts = mkGroups arts := by
  induction arts using List.reverseRecOn with
  | nil => rfl
  | append_singleton l a ih =>
    unfold buildGroups
    rw [List.foldl_append, List.foldl_cons, List.foldl_nil]
    have hbl : List.foldl
        (fun groups a =>
          let normalized := normalize_text a.title
          if normalized = [] then groups else addToGroups groups normalized a)
        [] l = mkGroups l := by
      unfold buildGroups at ih
      exact ih
    rw [hbl]
    exact step_one l a

/-- Index in the corpus of the first article whose title normalizes to
`k` — the moment key `k` was first encountered. -/
def firstHit (arts : List Article) (k : List Char) : Nat :=
  arts.findIdx (fun a => normalize_text a.title == k)

theorem firstHit_cons_ne {a : Article} {arts : List Article} {k : List Char}
    (h : normalize_text a.title ≠ k) :
    firstHit (a :: arts) k = firstHit arts k + 1 := by
  unfold firstHit
  rw [List.findIdx_cons]
  have hb : (normalize_text a.title == k) = false := by
    simpa using h
  rw [hb]
  rfl

theorem firstHit_cons_self {a : Article} {arts : List Article} :
    firstHit (a :: arts) (normalize_text a.title) = 0 := by
  unfold firstHit
  rw [List.findIdx_cons]
  have hb : (normalize_text a.title == normalize_text a.title) = true := by simp
  rw [hb]
  rfl

/-- The keys of the grouping dictionary are ordered by first encounter. -/
theorem keyList_pairwise_firstHit (arts : List Article) :
    (keyList arts).Pairwise
      (fun k1 k2 => firstHit arts k1 < firstHit arts k2) := by
  induction arts with
  | nil => simp [keyList]
  | cons a arts ih =>
    by_cases h : normalize_text a.title = []
    · rw [keyList_cons_of_nil h]
      refine ih.imp_of_mem ?_
      intro k1 k2 h1 h2 hlt
      have e1 : normalize_text a.title ≠ k1 :=
        fun he => (mem_keyList.mp h1).1 (h ▸ he).symm
      have e2 : normalize_text a.title ≠ k2 :=
        fun he => (mem_keyList.mp h2).1 (h ▸ he).symm
      rw [firstHit_cons_ne e1, firstHit_cons_ne e2]
      omega
    · rw [keyList_cons_of_ne h]
      refine List.Pairwise.cons ?_ ?_
      · intro k2 hk2
        have hne : normalize_text a.title ≠ k2 := by
          intro he
          have := (List.mem_filter.mp hk2).2
          rw [← he] at this
          simp at this
        rw [firstHit_cons_self, firstHit_cons_ne hne]
        omega
      · refine (ih.filter _).imp_of_mem ?_
        intro k1 k2 h1 h2 hlt
        have e1 : normalize_text a.title ≠ k1 := by
          intro he
          have := (List.mem_filter.mp h1).2
          rw [← he] at this
          simp at this
        have e2 : normalize_text a.title ≠ k2 := by
          intro he
          have := (List.mem_filter.mp h2).2
          rw [← he] at this
          simp at this
        rw [firstHit_cons_ne e1, firstHit_cons_ne e2]
        omega

theorem mem_insertBySize {x y : List Article} {L : List (List Article)} :
    y ∈ insertBySize x L ↔ y = x ∨ y ∈ L := by
  induction L with
  | nil => simp [insertBySize]
  | cons z L ih =>
    rw [insertBySize]
    by_cases h : z.length ≤ x.length
    · rw [if_pos h]
      simp [List.mem_cons]
    · rw [if_neg h]
      rw [List.mem_cons, ih, List.mem_cons]
      tauto

theorem mem_sortBySize {y : List Article} {L : List (List Article)} :
    y ∈ sortBySize L ↔ y ∈ L := by
  induction L with
  | nil => rw [sortBySize]
  | cons x L ih =>
    rw [sortBySize, mem_insertBySize, ih, List.mem_cons]

/-- Inserting an element that relates by `P` to everything already sorted
preserves the stable descending invariant. -/
theorem insertBySize_pairwise {P : List Article → List Article → Prop}
    {x : List Article} {M : List (List Article)}
    (hM : M.Pairwise (fun c d => d.length ≤ c.length ∧ (c.length = d.length → P c d)))
    (hx : ∀ y ∈ M, P x y) :
    (insertBySize x M).Pairwise
      (fun c d => d.length ≤ c.length ∧ (c.length = d.length → P c d)) := by
  induction M with
  | nil => simp [insertBySize]
  | cons y M ih =>
    rw [insertBySize]
    by_cases h : y.length ≤ x.length
    · rw [if_pos h]
      refine List.Pairwise.cons ?_ hM
      intro z hz
      rcases List.mem_cons.mp hz with rfl | hz2
      · exact ⟨h, fun _ => hx z (by simp)⟩
      · have hyz := (List.pairwise_cons.mp hM).1 z hz2
        exact ⟨le_trans hyz.1 h, fun _ => hx z (List.mem_cons_of_mem y hz2)⟩
    · rw [if_neg h]
      push_neg at h
      refine List.Pairwise.cons ?_
        (ih (List.pairwise_cons.mp hM).2
          (fun z hz => hx z (List.mem_cons_of_mem y hz)))
      intro z hz
      rcases mem_insertBySize.mp hz with rfl | hz2
      · exact ⟨le_of_lt h, fun he => absurd he (by omega)⟩
      · exact (List.pairwise_cons.mp hM).1 z hz2

/-- The stable descending-by-size sort: the output is descending by size,
and any relation `P` holding pairwise on the input still holds on
equal-sized clusters of the output (stability). -/
theorem sortBySize_pairwise {P : List Article → List Article → Prop}
    {L : List (List Article)} (hL : L.Pairwise P) :
    (sortBySize L).Pairwise
      (fun c d => d.length ≤ c.length ∧ (c.length = d.length → P c d)) := by
  induction L with
  | nil =>
    rw [sortBySize]
    exact List.Pairwise.nil
  | cons x L ih =>
    rw [sortBySize]
    refine insertBySize_pairwise (ih (List.pairwise_cons.mp hL).2) ?_
    intro y hy
    exact (List.pairwise_cons.mp hL).1 y (mem_sortBySize.mp hy)

/-- The normalized key of a (non-empty) cluster: its first member's
normalized title. -/
def clusterKey (cl : List Article) : List Char :=
  normalize_text (cl.headD defaultArticle).title

theorem clusterKey_groupOf {arts : List Article} {k : List Char}
    (h : groupOf arts k ≠ []) : clusterKey (groupOf arts k) = k := by
  unfold clusterKey
  cases hg : groupOf arts k with
  | nil => exact absurd hg h
  | cons c cl =>
    have hc : c ∈ groupOf arts k := hg ▸ List.mem_cons_self c cl
    have h2 := (List.mem_filter.mp hc).2
    simpa using h2

theorem cluster_eq (arts : List Article) :
    cluster_by_exact_match arts =
      sortBySize (((keyList arts).map (groupOf arts)).filter
        (fun g => 2 ≤ g.length)) := by
  unfold cluster_by_exact_match
  rw [buildGroups_eq]
  unfold mkGroups
  rw [List.map_map]
  rfl

theorem mem_cluster_iff {arts : List Article} {cl : List Article} :
    cl ∈ cluster_by_exact_match arts ↔
      2 ≤ cl.length ∧ ∃ k ∈ keyList arts, cl = groupOf arts k := by
  rw [cluster_eq, mem_sortBySize, List.mem_filter]
  constructor
  · rintro ⟨hmap, hlen⟩
    rcases List.mem_map.mp hmap with ⟨k, hk, rfl⟩
    exact ⟨by simpa using hlen, k, hk, rfl⟩
  · rintro ⟨hlen, k, hk, rfl⟩
    exact ⟨List.mem_map.mpr ⟨k, hk, rfl⟩, by simpa using hlen⟩

theorem groupOf_mem_cluster {arts : List Article} {k : List Char}
    (hk : k ≠ []) (hlen : 2 ≤ (groupOf arts k).length) :
    groupOf arts k ∈ cluster_by_exact_match arts := by
  refine mem_cluster_iff.mpr ⟨hlen, k, ?_, rfl⟩
  rcases List.exists_mem_of_length_pos
    (show 0 < (groupOf arts k).length by omega) with ⟨a, ha⟩
  have hmem := List.mem_filter.mp ha
  exact mem_keyList.mpr ⟨hk, a, hmem.1, by simpa using hmem.2⟩

theorem cluster_pairwise (arts : List Article) :
    (cluster_by_exact_match arts).Pairwise (fun c d =>
      d.length < c.length ∨ (d.length = c.length ∧
        firstHit arts (clusterKey c) < firstHit arts (clusterKey d))) := by
  rw [cluster_eq]
  have h1 : ((keyList arts).map (groupOf arts)).Pairwise
      (fun c d => c ≠ [] → d ≠ [] →
        firstHit arts (clusterKey c) < firstHit arts (clusterKey d)) := by
    rw [List.pairwise_map]
    refine (keyList_pairwise_firstHit arts).imp_of_mem ?_
    intro k1 k2 _ _ hlt hc hd
    rw [clusterKey_groupOf hc, clusterKey_groupOf hd]
    exact hlt
  have h3 := sortBySize_pairwise (h1.filter (fun g => 2 ≤ g.length))
  refine h3.imp_of_mem ?_
  intro c d hc hd hcd
  have hcne : c ≠ [] := by
    have h4 := (List.mem_filter.mp (mem_sortBySize.mp hc)).2
    intro he
    rw [he] at h4
    simp at h4
  have hdne : d ≠ [] := by
    have h4 := (List.mem_filter.mp (mem_sortBySize.mp hd)).2
    intro he
    rw [he] at h4
    simp at h4
  rcases Nat.lt_or_ge d.length c.length with hlt | hge
  · exact Or.inl hlt
  · have heq : c.length = d.length := le_antisymm hge hcd.1
    exact Or.inr ⟨heq.symm, hcd.2 heq hcne hdne⟩

/-- C6: the clusters are exactly the groups (`groupOf`  = the articles
sharing one non-empty normalized title, in first-seen corpus order) with at
least two members; they are ordered by descending member count, and
equal-sized clusters appear in the order their key was first encountered
in the corpus. -/
theorem cluster_by_exact_match_spec (arts : List Article) :
    (∀ cl ∈ cluster_by_exact_match arts,
        2 ≤ cl.length ∧ ∃ k, k ≠ [] ∧ cl = groupOf arts k) ∧
      (∀ k : List Char, groupOf arts k ∈ cluster_by_exact_match arts ↔
        k ≠ [] ∧ 2 ≤ (groupOf arts k).length) ∧
      (cluster_by_exact_match arts).Pairwise (fun c d =>
        d.length < c.length ∨ (d.length = c.length ∧
          firstHit arts (clusterKey c) < firstHit arts (clusterKey d))) := by
  refine ⟨?_, ?_, cluster_pairwise arts⟩
  · intro cl hcl
    rcases mem_cluster_iff.mp hcl with ⟨hlen, k, hk, rfl⟩
    exact ⟨hlen, k, (mem_keyList.mp hk).1, rfl⟩
  · intro k
    constructor
    · intro hmem
      rcases mem_cluster_iff.mp hmem with ⟨hlen, k2, hk2, heq⟩
      have hne : groupOf arts k ≠ [] := by
        intro h
        rw [h] at hlen
        simp at hlen
      refine ⟨?_, hlen⟩
      have e1 := clusterKey_groupOf hne
      have hne2 : groupOf arts k2 ≠ [] := by
        rw [← heq]
        exact hne
      have e2 := clusterKey_groupOf hne2
      rw [heq] at e1
      rw [e2] at e1
      rw [← e1]
      exact (mem_keyList.mp hk2).1
    · rintro ⟨hk, hlen⟩
      exact groupOf_mem_cluster hk hlen

/-! ### Identical normalized titles (claim C1) -/

theorem generate_ngrams_congr {t1 t2 : List Char}
    (h : normalize_text t1 = normalize_text t2) (n : Nat) :
    generate_ngrams t1 n = generate_ngrams t2 n := by
  unfold generate_ngrams
  rw [h]

theorem getD_mem {α : Type} {l : List α} {i : Nat} (d : α) (h : i < l.length) :
    l.getD i d ∈ l := by
  induction l generalizing i with
  | nil => simp at h
  | cons x xs ih =>
    cases i with
    | zero => simp [List.getD_cons_zero]
    | succ i0 =>
      rw [List.getD_cons_succ]
      refine List.mem_cons_of_mem x (ih ?_)
      simp at h
      omega

theorem two_le_length_filter {α : Type} (p : α → Bool) (d : α) (l : List α)
    (i j : Nat) (hij : i < j) (hj : j < l.length)
    (hpi : p (l.getD i d) = true) (hpj : p (l.getD j d) = true) :
    2 ≤ (l.filter p).length := by
  induction l generalizing i j with
  | nil => simp at hj
  | cons x xs ih =>
    cases j with
    | zero => omega
    | succ j0 =>
      rw [List.getD_cons_succ] at hpj
      have hj0 : j0 < xs.length := by
        simp at hj
        omega
      cases i with
      | zero =>
        rw [List.getD_cons_zero] at hpi
        rw [List.filter_cons_of_pos hpi, List.length_cons]
        have hmem : xs.getD j0 d ∈ xs.filter p :=
          List.mem_filter.mpr ⟨getD_mem d hj0, hpj⟩
        have hpos : 0 < (xs.filter p).length :=
          List.length_pos.mpr (List.ne_nil_of_mem hmem)
        omega
      | succ i0 =>
        rw [List.getD_cons_succ] at hpi
        have h2 := ih i0 j0 (by omega) hj0 hpi hpj
        rw [List.filter_cons]
        split
        · rw [List.length_cons]
          omega
        · exact h2

/-- C1 (amended): two articles whose titles have identical normalizations
always receive pairwise similarity exactly `1` at any n-gram size `n ≥ 1`
(this includes titles normalizing to the empty string, whose fingerprints
are both the singleton of the empty string); and whenever the shared
normalization is non-empty, `cluster_by_exact_match` places the two
articles into one common cluster.  (Articles normalizing to the empty
string are skipped by the clusterer, so the clustering half necessarily
excludes them — see the counterexample.) -/
theorem identical_titles_same_cluster (arts : List Article) (n i j : Nat)
    (hn : 1 ≤ n) (hij : i < j) (hj : j < arts.length)
    (heq : normalize_text (arts.getD i defaultArticle).title =
      normalize_text (arts.getD j defaultArticle).title) :
    calculate_jaccard_similarity
        (generate_ngrams (arts.getD i defaultArticle).title n)
        (generate_ngrams (arts.getD j defaultArticle).title n) = 1 ∧
      (normalize_text (arts.getD i defaultArticle).title ≠ [] →
        ∃ cl ∈ cluster_by_exact_match arts,
          arts.getD i defaultArticle ∈ cl ∧ arts.getD j defaultArticle ∈ cl) := by
  constructor
  · rw [generate_ngrams_congr heq n]
    exact jaccard_self (generate_ngrams_nonempty _)
  · intro hne
    have hpi : (normalize_text (arts.getD i defaultArticle).title ==
        normalize_text (arts.getD i defaultArticle).title) = true := by simp
    have hpj : (normalize_text (arts.getD j defaultArticle).title ==
        normalize_text (arts.getD i defaultArticle).title) = true := by
      rw [← heq]
      simp
    have hlen : 2 ≤ (groupOf arts
        (normalize_text (arts.getD i defaultArticle).title)).length :=
      two_le_length_filter _ defaultArticle arts i j hij hj hpi hpj
    refine ⟨groupOf arts (normalize_text (arts.getD i defaultArticle).title),
      groupOf_mem_cluster hne hlen, ?_, ?_⟩
    · exact List.mem_filter.mpr ⟨getD_mem defaultArticle (by omega), hpi⟩
    · exact List.mem_filter.mpr ⟨getD_mem defaultArticle hj, hpj⟩

/-- C1 counterexample: two distinct articles whose (empty) titles have
identical normalizations, for which `cluster_by_exact_match` produces no
cluster at all — they are not placed in a common cluster, refuting the
claim's inclusion of titles that normalize to the empty string. -/
theorem empty_titles_not_clustered :
    normalize_text (Article.mk [] [ 'u' ] []).title =
        normalize_text (Article.mk [] [ 'v' ] []).title ∧
      cluster_by_exact_match
        [Article.mk [] [ 'u' ] [], Article.mk [] [ 'v' ] []] = [] ∧
      calculate_jaccard_similarity
        (generate_ngrams (Article.mk [] [ 'u' ] []).title 3)
        (generate_ngrams (Article.mk [] [ 'v' ] []).title 3) = 1 := by
  refine ⟨rfl, rfl, ?_⟩
  exact jaccard_self (generate_ngrams_nonempty [])

unseal removeUrls pyWords in
/-- C1 witness: a concrete corpus where the third and first article titles
normalize identically and non-emptily; they land in one shared cluster with
similarity `1`. -/
theorem identical_titles_same_cluster_witness :
    (1 ≤ 3 ∧ 0 < 2 ∧ 2 < 3 ∧
      normalize_text (([Article.mk [ 'F', 'o', 'o' ] [ 'u' ] [],
          Article.mk [ 'B' ] [ 'v' ] [],
          Article.mk [ 'f', 'o', 'o' ] [ 'w' ] []].getD 0
            defaultArticle).title) =
        normalize_text (([Article.mk [ 'F', 'o', 'o' ] [ 'u' ] [],
          Article.mk [ 'B' ] [ 'v' ] [],
          Article.mk [ 'f', 'o', 'o' ] [ 'w' ] []].getD 2
            defaultArticle).title)) ∧
    (calculate_jaccard_similarity
        (generate_ngrams (([Article.mk [ 'F', 'o', 'o' ] [ 'u' ] [],
          Article.mk [ 'B' ] [ 'v' ] [],
          Article.mk [ 'f', 'o', 'o' ] [ 'w' ] []].getD 0
            defaultArticle).title) 3)
        (generate_ngrams (([Article.mk [ 'F', 'o', 'o' ] [ 'u' ] [],
          Article.mk [ 'B' ] [ 'v' ] [],
          Article.mk [ 'f', 'o', 'o' ] [ 'w' ] []].getD 2
            defaultArticle).title) 3) = 1 ∧
      (normalize_text (([Article.mk [ 'F', 'o', 'o' ] [ 'u' ] [],
          Article.mk [ 'B' ] [ 'v' ] [],
          Article.mk [ 'f', 'o', 'o' ] [ 'w' ] []].getD 0
            defaultArticle).title) ≠ [] →
        ∃ cl ∈ cluster_by_exact_match
            [Article.mk [ 'F', 'o', 'o' ] [ 'u' ] [],
              Article.mk [ 'B' ] [ 'v' ] [],
              Article.mk [ 'f', 'o', 'o' ] [ 'w' ] []],
          ([Article.mk [ 'F', 'o', 'o' ] [ 'u' ] [],
            Article.mk [ 'B' ] [ 'v' ] [],
            Article.mk [ 'f', 'o', 'o' ] [ 'w' ] []].getD 0
              defaultArticle) ∈ cl ∧
          ([Article.mk [ 'F', 'o', 'o' ] [ 'u' ] [],
            Article.mk [ 'B' ] [ 'v' ] [],
            Article.mk [ 'f', 'o', 'o' ] [ 'w' ] []].getD 2
              defaultArticle) ∈ cl)) :=
  ⟨⟨by omega, by omega, by omega, by decide⟩,
    identical_titles_same_cluster _ 3 0 2 (by omega) (by omega) (by decide)
      (by decide)⟩

/-! ### Normalization pipeline (claim C5), report, pipeline, loading -/

unseal removeUrls pyWords in
/-- C5 (amended): `normalize_text` applies, in order: lowercasing; removal
of every URL-shaped substring whose scheme is `http` or `https`
(`http[s]?://` followed by a non-empty run of non-whitespace) — not
arbitrary schemes; replacement of every character that is not a lowercase
ASCII letter, digit, or whitespace with a space; and collapsing of
whitespace runs to single spaces with trimming at both ends.  In
particular `normalize_text "Hello, World!  123" = "hello world 123"`; an
`https` URL is removed; an uppercase `HTTP` URL is removed because
lowercasing happens before URL removal; an `ftp` URL is not removed. -/
theorem normalize_text_steps :
    (∀ s : List Char, normalize_text s =
      if s = [] then []
      else normalizeWhitespace (keepAlnumSpaces (removeUrls (lowerStr s)))) ∧
    normalize_text ("Hello, World!  123".toList) = "hello world 123".toList ∧
    normalize_text ("Read https://a.b/c?d=1 now".toList) = "read now".toList ∧
    normalize_text ("HTTP://EXAMPLE.COM later".toList) = "later".toList ∧
    normalize_text ("ftp://x".toList) = "ftp x".toList := by
  refine ⟨fun s => rfl, ?_, ?_, ?_, ?_⟩ <;> decide

unseal removeUrls pyWords in
/-- C5 counterexample: the URL-shaped substring `ftp://x` (scheme `ftp`) is
not removed: `removeUrls` leaves it intact and normalization yields
`"ftp x"` — not the empty string that removing every `scheme://`-shaped
substring would produce on this input. -/
theorem ftp_url_not_removed :
    removeUrls ("ftp://x".toList) = "ftp://x".toList ∧
      normalize_text ("ftp://x".toList) = "ftp x".toList ∧
      normalize_text ("ftp://x".toList) ≠ [] := by
  refine ⟨?_, ?_, ?_⟩ <;> decide

/-- C7: the report is a pure function of the loaded articles, the stored
pairs and the stored clusters, satisfying the exact formulas —
`articles_in_clusters` is the sum of cluster sizes, `unique_articles =
total - articles_in_clusters + num_clusters`, the rates are
`articles_in_clusters/total` and `unique_articles/total` as percentages
(the source renders them as strings at two-decimal precision), and when
the corpus is empty both rates are `0` rather than an arithmetic fault. -/
theorem generate_report_formulas (articles : List Article)
    (duplicates : List SimilarPair) (clusters : List (List Article))
    (thr : ℚ) :
    (generate_report articles duplicates clusters thr).total_articles_analyzed
        = articles.length ∧
      (generate_report articles duplicates clusters thr).num_clusters =
        clusters.length ∧
      (generate_report articles duplicates clusters
          thr).total_articles_in_clusters = (clusters.map List.length).sum ∧
      (generate_report articles duplicates clusters thr).truly_unique_articles
        = (articles.length : ℤ) - ((clusters.map List.length).sum : ℤ) +
          (clusters.length : ℤ) ∧
      (generate_report articles duplicates clusters thr).duplication_rate =
        (if 0 < articles.length
         then ((clusters.map List.length).sum : ℚ) / (articles.length : ℚ) * 100
         else 0) ∧
      (generate_report articles duplicates clusters thr).uniqueness_rate =
        (if 0 < articles.length
         then (((articles.length : ℤ) - ((clusters.map List.length).sum : ℤ) +
            (clusters.length : ℤ) : ℤ) : ℚ) / (articles.length : ℚ) * 100
         else 0) ∧
      (generate_report articles duplicates clusters thr).num_pairs =
        duplicates.length ∧
      (generate_report articles duplicates clusters thr).similarity_threshold
        = thr ∧
      (generate_report [] duplicates clusters thr).duplication_rate = 0 ∧
      (generate_report [] duplicates clusters thr).uniqueness_rate = 0 :=
  ⟨rfl, rfl, rfl, rfl, rfl, rfl, rfl, rfl, rfl, rfl⟩

/-- C8: in the `analyze` pipeline, `find_similar_pairs` (at `ngram_size`
3) contributes the stored pairs exactly when the corpus size is at or
below the fixed cutoff `max_articles_for_pairwise = 10000`; above the
cutoff no similar pairs are produced, while exact-match clustering always
runs on the full corpus and its result does not depend on the cutoff. -/
theorem analyze_cutoff (articles : List Article) (thr : ℚ) :
    (analyze articles thr).duplicates =
        (if articles.length ≤ max_articles_for_pairwise
         then find_similar_pairs articles 3 thr else []) ∧
      (analyze articles thr).clusters = cluster_by_exact_match articles ∧
      max_articles_for_pairwise = 10000 ∧
      (analyze articles thr).report =
        generate_report articles (analyze articles thr).duplicates
          (analyze articles thr).clusters thr :=
  ⟨rfl, rfl, rfl, rfl⟩

/-- C9 (amended): `load_articles` stores every parsed row in input order;
rows sharing a URL are all retained (the later row does not overwrite the
earlier one), so the loaded collection has pairwise-distinct URLs exactly
when the input rows already had pairwise-distinct URLs. -/
theorem load_articles_keeps_rows (rows : List Article) :
    load_articles rows = rows ∧
      ((load_articles rows).Pairwise (fun a b => a.url ≠ b.url) ↔
        rows.Pairwise (fun a b => a.url ≠ b.url)) :=
  ⟨rfl, Iff.rfl⟩

/-- C9 counterexample: two distinct input rows share the URL `"u"`;
`load_articles` retains both, so the loaded collection carries the same
URL twice — the later row did not overwrite the earlier one. -/
theorem duplicate_url_not_overwritten :
    (load_articles [Article.mk [ 'a' ] [ 'u' ] [],
        Article.mk [ 'b' ] [ 'u' ] []] =
      [Article.mk [ 'a' ] [ 'u' ] [], Article.mk [ 'b' ] [ 'u' ] []]) ∧
      (Article.mk [ 'a' ] [ 'u' ] []).url = (Article.mk [ 'b' ] [ 'u' ] []).url ∧
      Article.mk [ 'a' ] [ 'u' ] [] ≠ Article.mk [ 'b' ] [ 'u' ] [] ∧
      ¬ (load_articles [Article.mk [ 'a' ] [ 'u' ] [],
          Article.mk [ 'b' ] [ 'u' ] []]).Pairwise
        (fun a b => a.url ≠ b.url) := by
  refine ⟨rfl, rfl, by decide, ?_⟩
  intro h
  have h2 : List.Pairwise (fun a b => a.url ≠ b.url)
      [Article.mk [ 'a' ] [ 'u' ] [], Article.mk [ 'b' ] [ 'u' ] []] := h
  exact (List.pairwise_cons.mp h2).1 (Article.mk [ 'b' ] [ 'u' ] [])
    (List.mem_singleton_self _) rfl

unseal removeUrls pyWords in
/-- C3 witness: at `n = 2` on the title `"abcd"`, the theorem applies with
`1 ≤ 2` and characterizes membership of the bigram `"bc"`. -/
theorem generate_ngrams_spec_witness :
    1 ≤ 2 ∧
      ([ 'b', 'c' ] ∈ generate_ngrams ("abcd".toList) 2 ↔
        (if (normalize_text ("abcd".toList)).length < 2
         then [ 'b', 'c' ] = normalize_text ("abcd".toList)
         else ([ 'b', 'c' ] : List Char).length = 2 ∧
           ∃ l r : List Char, l ++ [ 'b', 'c' ] ++ r =
             normalize_text ("abcd".toList))) :=
  ⟨by omega, generate_ngrams_spec ("abcd".toList) 2 (by omega) [ 'b', 'c' ]⟩

/-- C10 witness: at thresholds `0` and `2` on a two-article corpus, both
hypotheses hold and the theorem applies. -/
theorem find_similar_pairs_threshold_extremes_witness :
    ((0 : ℚ) ≤ 0 ∧ (1 : ℚ) < 2) ∧
      ((find_similar_pairs [Article.mk [ 'a' ] [] [],
            Article.mk [ 'b' ] [] []] 3 0).length =
          [Article.mk [ 'a' ] [] [], Article.mk [ 'b' ] [] []].length *
            ([Article.mk [ 'a' ] [] [],
              Article.mk [ 'b' ] [] []].length - 1) / 2 ∧
        find_similar_pairs [Article.mk [ 'a' ] [] [],
          Article.mk [ 'b' ] [] []] 3 2 = []) :=
  ⟨⟨by norm_num, by norm_num⟩,
    find_similar_pairs_threshold_extremes _ 3 0 2 (by norm_num) (by norm_num)⟩
